import Mathlib

/-!
# Verification of the phonique track-title reconciliation kernel

Shallow embedding of `src/discogs/crawler/parser.rs`: the character
scanner (`Scanner`), the token parser (`Parser`), the fragment fold
(`parse_track`) and the equality predicate (`impl PartialEq for Track`).

Conventions of the embedding:
* Strings are `List Char`.  `parse_track` first removes every non-ASCII
  character (`input.replace(|c| !c.is_ascii(), "")`), so inside the
  pipeline character indices and byte indices of the Rust code coincide
  and a character-level model is exact.
* Every `unwrap`/indexing operation of the Rust parser is modelled with
  `Option`: a `none` result corresponds to a panic (out-of-range access
  or failed unwrap).  Loops whose progress is not structural take a fuel
  argument; exhausted fuel also yields `none`.  Totality theorems show
  `none` is never produced.
* The Rust `HashSet` insertion (arbitrary iteration order) is modelled
  as insertion-ordered exact-string deduplication; properties proved
  about the sets are order-independent (length and membership).
-/

namespace Phonique

/-- Token kinds, from `enum TokenType`. -/
inductive TokenType where
  | And
  | Column
  | LeftBracket
  | LeftParen
  | Literal
  | Minus
  | Plus
  | Feat
  | RightBracket
  | RightParen
  | Mix
  | EOF
  | Dot
  deriving DecidableEq, Repr

/-- From `struct Token { lexeme: Option<String>, token_type: TokenType }`. -/
structure Token where
  lexeme : Option (List Char)
  tokenType : TokenType
  deriving DecidableEq, Repr

/-- From `Scanner::is_special_token`. -/
def isSpecialToken (ch : Char) : Option TokenType :=
  match ch with
  | '(' => some TokenType.LeftParen
  | ')' => some TokenType.RightParen
  | '[' => some TokenType.LeftBracket
  | ']' => some TokenType.RightBracket
  | '&' => some TokenType.And
  | ',' => some TokenType.And
  | '-' => some TokenType.Minus
  | '+' => some TokenType.Plus
  | ':' => some TokenType.Column
  | '.' => some TokenType.Dot
  | '\x00' => some TokenType.EOF
  | _ => none

/-- The pattern `^[a-zA-Z][1-9]$` of `TRACK_SIDE_REGEX`, used by
`Scanner::is_track_side` and `Parser::is_track_side`. -/
def isTrackSide (w : List Char) : Bool :=
  match w with
  | [a, d] => (('a' ≤ a && a ≤ 'z') || ('A' ≤ a && a ≤ 'Z')) && ('1' ≤ d && d ≤ '9')
  | _ => false

/-- The case-sensitive keyword table built in `Scanner::new`. -/
def keywordType (w : List Char) : Option TokenType :=
  if w = "remix".toList ∨ w = "mix".toList ∨ w = "instrumental".toList ∨
     w = "instr.".toList ∨ w = "Remix".toList ∨ w = "Mix".toList ∨
     w = "reconstruction".toList ∨ w = "Reconstruction".toList then
    some TokenType.Mix
  else if w = "feat".toList ∨ w = "feat.".toList then
    some TokenType.Feat
  else
    none

/-- End of `Scanner::scan_token`: a completed word is looked up in the
keyword table; keywords carry no lexeme, other words become `Literal`. -/
def tokenOfWord (w : List Char) : Token :=
  match keywordType w with
  | some t => { lexeme := none, tokenType := t }
  | none => { lexeme := some w, tokenType := TokenType.Literal }

/-- The scanning loop of `Scanner::scan`/`scan_token`/`keyword`, as a
single recursion over the remaining characters.  The mode `none` is the
top of `scan_token` (not inside a word); `some acc` is the `keyword`
loop with `acc` the characters consumed since the word began
(`input[start..current]`).  `keyword`'s breaks (which leave the stopping
character for the next `scan_token` iteration) are inlined: a stopping
special character emits its token, a stopping space is skipped.  A `.`
is absorbed into the word exactly when the accumulated text does *not*
match the track-side pattern (`Scanner::keyword`, the
`Some(TokenType::Dot)` arm: a track-side match breaks, anything else
falls through to `advance`). -/
def lexer : Option (List Char) → List Char → List Token
  | none, [] => []
  | some acc, [] => [tokenOfWord acc]
  | none, c :: cs =>
    match isSpecialToken c with
    | some t => { lexeme := none, tokenType := t } :: lexer none cs
    | none =>
      if c = ' ' ∨ c = '\t' then lexer none cs
      else lexer (some [c]) cs
  | some acc, c :: cs =>
    match isSpecialToken c with
    | some TokenType.Dot =>
      if isTrackSide acc then
        tokenOfWord acc :: { lexeme := none, tokenType := TokenType.Dot } :: lexer none cs
      else
        lexer (some (acc ++ [c])) cs
    | some t => tokenOfWord acc :: { lexeme := none, tokenType := t } :: lexer none cs
    | none =>
      if c = ' ' then tokenOfWord acc :: lexer none cs
      else lexer (some (acc ++ [c])) cs

/-- `Scanner::scan`: lex the whole input, then append the `EOF` token. -/
def scanTokens (cs : List Char) : List Token :=
  lexer none cs ++ [{ lexeme := none, tokenType := TokenType.EOF }]

/-- Semantic fragments, from `enum TrackPart`. -/
inductive TrackPart where
  | ArtistName (v : List Char)
  | Label (v : List Char)
  | Remix (v : List Char)
  | TrackName (v : List Char)
  | TrackSide (v : List Char)
  deriving DecidableEq, Repr

/-- `Vec::join(" ")` used at the end of `Parser::consume_literals`. -/
def joinSp (ws : List (List Char)) : List Char :=
  List.intercalate [' '] ws

/-- `Parser::advance` as a cursor transformer: `peek` the current token
(`tokens.get(current).unwrap()`, `none` models the panic); at `EOF` the
cursor does not move (the Rust code returns `tokens.last().unwrap()`,
which cannot fail once `peek` succeeded), otherwise it moves one right. -/
def advanceFrom (tokens : List Token) (c : Nat) : Option Nat :=
  match tokens.get? c with
  | none => none
  | some t => if t.tokenType = TokenType.EOF then some c else some (c + 1)

/-- `Parser::peek_before`: the token just before the cursor, `none` at 0. -/
def peekBefore (tokens : List Token) (c : Nat) : Option Token :=
  match c with
  | 0 => none
  | c' + 1 => tokens.get? c'

/-- `Parser::consume_literals`: consume the maximal run of `Literal`
tokens starting at the cursor, returning their lexemes and the new
cursor.  The lexeme `unwrap` is modelled by the `none` arm; fuel
exhaustion also yields `none` (the run advances one token per step, so
fuel `tokens.length + 1` always suffices). -/
def consumeLiteralsF (tokens : List Token) : Nat → Nat → Option (List (List Char) × Nat)
  | 0, _ => none
  | fuel + 1, c =>
    match tokens.get? c with
    | none => none
    | some t =>
      if t.tokenType = TokenType.Literal then
        match t.lexeme with
        | none => none
        | some lx =>
          match consumeLiteralsF tokens fuel (c + 1) with
          | none => none
          | some (ws, c') => some (lx :: ws, c')
      else
        some ([], c)

/-- `consume_literals` at the standard fuel. -/
def consumeLits (tokens : List Token) (c : Nat) : Option (List (List Char) × Nat) :=
  consumeLiteralsF tokens (tokens.length + 1) c

/-- The backward scan of `Parser::is_remixer`: walk `i` from the cursor
down to 0; the first `LeftParen` means true, the first `Minus` means
false, falling off the front means false.  `tokens.get(i).unwrap()` is
modelled by the `none` arm. -/
def backScan (tokens : List Token) : Nat → Option Bool
  | 0 =>
    match tokens.get? 0 with
    | none => none
    | some t =>
      match t.tokenType with
      | TokenType.LeftParen => some true
      | TokenType.Minus => some false
      | _ => some false
  | i + 1 =>
    match tokens.get? (i + 1) with
    | none => none
    | some t =>
      match t.tokenType with
      | TokenType.LeftParen => some true
      | TokenType.Minus => some false
      | _ => backScan tokens i

/-- The forward scan of `Parser::is_remixer` over the tokens from the
cursor on: the first `Mix` means true, the first `RightParen` means
false.  Its indices `current..tokens.len()` are always in range. -/
def forwardScan : List Token → Bool
  | [] => false
  | t :: ts =>
    match t.tokenType with
    | TokenType.Mix => true
    | TokenType.RightParen => false
    | _ => forwardScan ts

/-- `Parser::is_remixer`: both scans are evaluated and conjoined. -/
def isRemixer (tokens : List Token) (c : Nat) : Option Bool :=
  match backScan tokens c with
  | none => none
  | some left => some (left && forwardScan (tokens.drop c))

/-- The `while collecting` loop inside the `LeftParen` branch of
`Parser::parse`: as long as the cursor is not at `EOF` and peeks a
`Literal`, consume the literal run and append its joined text (no
separator) to the name being built; stop at anything else. -/
def collectAfterParen (tokens : List Token) : Nat → Nat → List Char → Option (List Char × Nat)
  | 0, _, _ => none
  | fuel + 1, c, name =>
    match tokens.get? c with
    | none => none
    | some t =>
      if t.tokenType = TokenType.EOF then some (name, c)
      else if t.tokenType = TokenType.Literal then
        match consumeLits tokens c with
        | none => none
        | some (ws, c') => collectAfterParen tokens fuel c' (name ++ joinSp ws)
      else some (name, c)

/-- One iteration of the main loop of `Parser::parse`.  `inr parts`
means the `while !self.is_at_end()` guard failed and the loop exits;
`inl (c, parts)` is the state at the next iteration.  The final
`self.advance()` of the loop body is the `advanceFrom` at the end of
each branch; the `And | Feat` branch `continue`s instead. -/
def parseStep (tokens : List Token) (cur : Nat) (parts : List TrackPart) :
    Option ((Nat × List TrackPart) ⊕ List TrackPart) :=
  match tokens.get? cur with
  | none => none
  | some t0 =>
    if t0.tokenType = TokenType.EOF then some (Sum.inr parts)
    else
      match consumeLits tokens cur with
      | none => none
      | some (ws, c1) =>
        let part := joinSp ws
        match tokens.get? c1 with
        | none => none
        | some t =>
          match t.tokenType with
          | TokenType.Dot =>
            let parts' := if isTrackSide part then parts ++ [TrackPart.TrackSide part] else parts
            (advanceFrom tokens c1).map fun c' => Sum.inl (c', parts')
          | TokenType.Column =>
            let parts' := if isTrackSide part then parts ++ [TrackPart.TrackSide part] else parts
            (advanceFrom tokens c1).map fun c' => Sum.inl (c', parts')
          | TokenType.Minus =>
            match peekBefore tokens c1 with
            | none =>
              (advanceFrom tokens c1).map fun c' => Sum.inl (c', parts)
            | some tk =>
              if tk.tokenType = TokenType.Mix then
                match advanceFrom tokens c1 with
                | none => none
                | some c2 =>
                  match consumeLits tokens c2 with
                  | none => none
                  | some (ws2, c3) =>
                    (advanceFrom tokens c3).map fun c' =>
                      Sum.inl (c', parts ++ [TrackPart.TrackName (joinSp ws2)])
              else
                let parts' := if part ≠ [] then parts ++ [TrackPart.ArtistName part] else parts
                (advanceFrom tokens c1).map fun c' => Sum.inl (c', parts')
          | TokenType.And =>
            parseConj tokens c1 parts part
          | TokenType.Feat =>
            parseConj tokens c1 parts part
          | TokenType.LeftParen =>
            if part = [] ∧ parts ≠ [] then
              match advanceFrom tokens c1 with
              | none => none
              | some c2 =>
                match consumeLits tokens c2 with
                | none => none
                | some (ws2, c3) =>
                  let name0 := '(' :: joinSp ws2
                  match tokens.get? c3 with
                  | none => none
                  | some t3 =>
                    if t3.tokenType = TokenType.RightParen then
                      match advanceFrom tokens c3 with
                      | none => none
                      | some c4 =>
                        match collectAfterParen tokens (tokens.length + 1) c4 (name0 ++ [')']) with
                        | none => none
                        | some (nameF, c5) =>
                          (advanceFrom tokens c5).map fun c' =>
                            Sum.inl (c', parts ++ [TrackPart.TrackName nameF])
                    else
                      (advanceFrom tokens c3).map fun c' =>
                        Sum.inl (c', parts ++ [TrackPart.TrackName name0])
            else
              (advanceFrom tokens c1).map fun c' =>
                Sum.inl (c', parts ++ [TrackPart.TrackName part])
          | TokenType.Mix =>
            (advanceFrom tokens c1).map fun c' => Sum.inl (c', parts ++ [TrackPart.Remix part])
          | TokenType.LeftBracket =>
            if parts = [] then
              (advanceFrom tokens c1).map fun c' => Sum.inl (c', parts)
            else
              match parts.getLast? with
              | none => none
              | some lastPart =>
                let parts' :=
                  match lastPart with
                  | TrackPart.Remix _ => parts
                  | TrackPart.ArtistName _ => parts ++ [TrackPart.TrackName part]
                  | _ => parts
                (advanceFrom tokens c1).map fun c' => Sum.inl (c', parts')
          | TokenType.RightParen =>
            (advanceFrom tokens c1).map fun c' => Sum.inl (c', parts)
          | TokenType.RightBracket =>
            (advanceFrom tokens c1).map fun c' => Sum.inl (c', parts ++ [TrackPart.Label part])
          | _ =>
            (advanceFrom tokens c1).map fun c' => Sum.inl (c', parts ++ [TrackPart.TrackName part])
where
  /-- The `And | Feat` branch: classify the run before the conjunction
  with `is_remixer` at the cursor, advance past the conjunction, consume
  and classify the following run, advancing once more only in the remix
  case, then `continue` (no trailing `advance`). -/
  parseConj (tokens : List Token) (c1 : Nat) (parts : List TrackPart) (part : List Char) :
      Option ((Nat × List TrackPart) ⊕ List TrackPart) :=
    match isRemixer tokens c1 with
    | none => none
    | some r1 =>
      let parts1 := parts ++ [if r1 then TrackPart.Remix part else TrackPart.ArtistName part]
      match advanceFrom tokens c1 with
      | none => none
      | some c2 =>
        match consumeLits tokens c2 with
        | none => none
        | some (ws2, c3) =>
          let second := joinSp ws2
          match isRemixer tokens c3 with
          | none => none
          | some r2 =>
            if r2 then
              (advanceFrom tokens c3).map fun c4 =>
                Sum.inl (c4, parts1 ++ [TrackPart.Remix second])
            else
              some (Sum.inl (c3, parts1 ++ [TrackPart.ArtistName second]))

/-- The `while` loop of `Parser::parse`, iterating `parseStep`. -/
def parseLoop (tokens : List Token) : Nat → Nat → List TrackPart → Option (List TrackPart)
  | 0, _, _ => none
  | fuel + 1, cur, parts =>
    match parseStep tokens cur parts with
    | none => none
    | some (Sum.inr finalParts) => some finalParts
    | some (Sum.inl (c', parts')) => parseLoop tokens fuel c' parts'

/-- `Parser::new` + `Parser::parse` on an already ASCII-filtered input. -/
def parserParse (cs : List Char) : Option (List TrackPart) :=
  let tokens := scanTokens cs
  parseLoop tokens (tokens.length + 1) 0 []

/-- The canonical record, from `struct Track`. -/
structure Track where
  name : List Char
  artists : List (List Char)
  catno : List Char
  remix : List (List Char)
  position : List Char
  deriving DecidableEq, Repr

/-- `HashSet::insert`, modelled as insertion-ordered exact-string dedup. -/
def insertSet (s : List (List Char)) (v : List Char) : List (List Char) :=
  if v ∈ s then s else s ++ [v]

/-- Rust `u8::to_ascii_lowercase` on a character: ASCII uppercase maps
to lowercase, everything else is unchanged. -/
def lowerChar (c : Char) : Char :=
  if 'A' ≤ c ∧ c ≤ 'Z' then Char.ofNat (c.toNat + 32) else c

/-- `str::to_ascii_lowercase`. -/
def lowerStr (s : List Char) : List Char :=
  s.map lowerChar

/-- The empty record the fold of `parse_track` starts from. -/
def emptyTrack : Track :=
  { name := [], artists := [], catno := [], remix := [], position := [] }

/-- One step of the fragment fold in `parse_track`: artists and
remixers are inserted into their sets (a `Remix` whose ASCII-lowercase
is `"original"` is skipped), `name`/`position`/`catno` are overwritten. -/
def foldStep (st : Track) (p : TrackPart) : Track :=
  match p with
  | TrackPart.ArtistName v => { st with artists := insertSet st.artists v }
  | TrackPart.Remix v =>
    if lowerStr v = "original".toList then st
    else { st with remix := insertSet st.remix v }
  | TrackPart.TrackName v => { st with name := v }
  | TrackPart.TrackSide v => { st with position := v }
  | TrackPart.Label v => { st with catno := v }

/-- The fragment fold of `parse_track`. -/
def foldParts (parts : List TrackPart) : Track :=
  parts.foldl foldStep emptyTrack

/-- Rust `char::is_ascii`. -/
def isAsciiChar (c : Char) : Bool :=
  c.toNat ≤ 127

/-- `parse_track`: strip non-ASCII characters, scan, parse, fold. -/
def parseTrack (cs : List Char) : Option Track :=
  match parserParse (cs.filter isAsciiChar) with
  | none => none
  | some parts => some (foldParts parts)

/-- `impl PartialEq for Track` (`Track::eq`): length gates on the two
sets, case-folded name equality, then case-insensitive containment of
each set in its counterpart.  `catno` and `position` are not read. -/
def trackEq (a b : Track) : Bool :=
  if a.artists.length ≠ b.artists.length then false
  else if a.remix.length ≠ b.remix.length then false
  else if lowerStr a.name ≠ lowerStr b.name then false
  else if ¬ (a.artists.all fun artist => b.artists.any fun o => lowerStr o = lowerStr artist) then
    false
  else
    a.remix.all fun r => b.remix.any fun o => lowerStr o = lowerStr r

/-! ## The matcher -/

/-- The containment loops of `Track::eq` as a logical statement. -/
theorem all_any_lower_iff (l1 l2 : List (List Char)) :
    (l1.all fun x => l2.any fun o => lowerStr o = lowerStr x) = true ↔
      (∀ x ∈ l1, ∃ y ∈ l2, lowerStr y = lowerStr x) := by
  simp [List.all_eq_true, List.any_eq_true]

/-- Characterization of `Track::eq`: the Boolean returned by the Rust
loops agrees with the logical conjunction of the length gates, the
case-folded name equality, and the two containment conditions. -/
theorem trackEq_eq_true_iff (a b : Track) :
    trackEq a b = true ↔
      (a.artists.length = b.artists.length ∧
       a.remix.length = b.remix.length ∧
       lowerStr a.name = lowerStr b.name ∧
       (∀ x ∈ a.artists, ∃ y ∈ b.artists, lowerStr y = lowerStr x) ∧
       (∀ r ∈ a.remix, ∃ o ∈ b.remix, lowerStr o = lowerStr r)) := by
  unfold trackEq
  split_ifs with h1 h2 h3 h4
  · simp only [Bool.false_eq_true, false_iff]
    exact fun h => h1 h.1
  · simp only [Bool.false_eq_true, false_iff]
    exact fun h => h2 h.2.1
  · simp only [Bool.false_eq_true, false_iff]
    exact fun h => h3 h.2.2.1
  · rw [not_ne_iff] at h1 h2 h3
    rw [all_any_lower_iff]
    constructor
    · intro h
      exact ⟨h1, h2, h3, (all_any_lower_iff a.artists b.artists).mp h4, h⟩
    · intro h
      exact h.2.2.2.2
  · simp only [Bool.false_eq_true, false_iff]
    exact fun h => h4 ((all_any_lower_iff a.artists b.artists).mpr h.2.2.2.1)

/-- The containment condition of `Track::eq` depends only on the images
of the two collections under ASCII lowercasing. -/
theorem lower_contain_iff (l1 l2 : List (List Char)) :
    (∀ x ∈ l1, ∃ y ∈ l2, lowerStr y = lowerStr x) ↔
      (∀ v ∈ l1.map lowerStr, v ∈ l2.map lowerStr) := by
  constructor
  · rintro h v hv
    rw [List.mem_map] at hv
    obtain ⟨x, hx, rfl⟩ := hv
    obtain ⟨y, hy, he⟩ := h x hx
    exact List.mem_map.mpr ⟨y, hy, he⟩
  · intro h x hx
    have hm := h (lowerStr x) (List.mem_map.mpr ⟨x, hx, rfl⟩)
    rw [List.mem_map] at hm
    obtain ⟨y, hy, he⟩ := hm
    exact ⟨y, hy, he⟩

/-- One direction of the matcher invariance: a positive answer
transports along lower-image permutations of the fields. -/
theorem trackEq_true_transport (a a' b b' : Track)
    (hna : lowerStr a.name = lowerStr a'.name)
    (hnb : lowerStr b.name = lowerStr b'.name)
    (haa : (a.artists.map lowerStr).Perm (a'.artists.map lowerStr))
    (hra : (a.remix.map lowerStr).Perm (a'.remix.map lowerStr))
    (hab : (b.artists.map lowerStr).Perm (b'.artists.map lowerStr))
    (hrb : (b.remix.map lowerStr).Perm (b'.remix.map lowerStr)) :
    trackEq a b = true → trackEq a' b' = true := by
  have lenaa : a.artists.length = a'.artists.length := by
    have := haa.length_eq; simpa using this
  have lenra : a.remix.length = a'.remix.length := by
    have := hra.length_eq; simpa using this
  have lenab : b.artists.length = b'.artists.length := by
    have := hab.length_eq; simpa using this
  have lenrb : b.remix.length = b'.remix.length := by
    have := hrb.length_eq; simpa using this
  rw [trackEq_eq_true_iff, trackEq_eq_true_iff]
  rintro ⟨h1, h2, h3, h4, h5⟩
  refine ⟨by rw [← lenaa, ← lenab]; exact h1, by rw [← lenra, ← lenrb]; exact h2,
    by rw [← hna, ← hnb]; exact h3, ?_, ?_⟩
  · rw [lower_contain_iff] at h4 ⊢
    intro v hv
    exact hab.mem_iff.mp (h4 v (haa.mem_iff.mpr hv))
  · rw [lower_contain_iff] at h5 ⊢
    intro v hv
    exact hrb.mem_iff.mp (h5 v (hra.mem_iff.mpr hv))

/-- C1: `Track::eq` returns true iff the artist collections have equal
length, the remix collections have equal length, the names agree after
ASCII lowercasing, every artist of `a` has a case-insensitive match in
`b`'s artists and every remixer of `a` has a case-insensitive match in
`b`'s remixers; `catno` and `position` are never consulted. -/
theorem track_eq_characterization (a b : Track) :
    (trackEq a b = true ↔
      (a.artists.length = b.artists.length ∧
       a.remix.length = b.remix.length ∧
       lowerStr a.name = lowerStr b.name ∧
       (∀ x ∈ a.artists, ∃ y ∈ b.artists, lowerStr y = lowerStr x) ∧
       (∀ r ∈ a.remix, ∃ o ∈ b.remix, lowerStr o = lowerStr r))) ∧
    (∀ cn1 p1 cn2 p2,
      trackEq { a with catno := cn1, position := p1 } { b with catno := cn2, position := p2 } =
        trackEq a b) :=
  ⟨trackEq_eq_true_iff a b, fun _ _ _ _ => rfl⟩

/-- C9: the result of `Track::eq` is unchanged when either record's
artist collection is reordered, when any name/artist/remix string of
either record is replaced by one with the same ASCII lowercasing, or
when `catno`/`position` are changed arbitrarily — all such edits leave
the lowercased name and the lowercased artist/remix multisets intact,
which is the hypothesis below. -/
theorem track_eq_invariance (a a' b b' : Track)
    (hna : lowerStr a.name = lowerStr a'.name)
    (hnb : lowerStr b.name = lowerStr b'.name)
    (haa : (a.artists.map lowerStr).Perm (a'.artists.map lowerStr))
    (hra : (a.remix.map lowerStr).Perm (a'.remix.map lowerStr))
    (hab : (b.artists.map lowerStr).Perm (b'.artists.map lowerStr))
    (hrb : (b.remix.map lowerStr).Perm (b'.remix.map lowerStr)) :
    trackEq a b = trackEq a' b' := by
  rw [Bool.eq_iff_iff]
  exact ⟨trackEq_true_transport a a' b b' hna hnb haa hra hab hrb,
    trackEq_true_transport a' a b' b hna.symm hnb.symm haa.symm hra.symm hab.symm hrb.symm⟩

/-- Witness for `track_eq_invariance`: reordering, case changes and
`catno`/`position` edits at concrete records. -/
theorem track_eq_invariance_witness :
    trackEq
      { name := "Terula".toList, artists := ["Ted Amber".toList, "Barut".toList],
        catno := "BM006".toList, remix := ["GORBANI".toList], position := "A1".toList }
      { name := "TERULA".toList, artists := ["ted amber".toList, "barut".toList],
        catno := [], remix := ["gorbani".toList], position := [] } =
    trackEq
      { name := "terula".toList, artists := ["BARUT".toList, "TED AMBER".toList],
        catno := "XX".toList, remix := ["Gorbani".toList], position := "B2".toList }
      { name := "Terula".toList, artists := ["Ted amber".toList, "Barut".toList],
        catno := "YY".toList, remix := ["GorbanI".toList], position := "C3".toList } :=
  track_eq_invariance _ _ _ _ (by decide) (by decide) (by decide) (by decide)
    (by decide) (by decide)

/-! ## The lexer dot rule (claim C3) -/

/-- The claim as the specification words it: a `.` stopping a word in
progress is absorbed exactly when the accumulated text matches the
track-side pattern, so `"A1."` would lex as the single literal `"A1."`
and `"Tobias."` as the literal `"Tobias"` followed by a `Dot` token. -/
def dotAbsorbClaim : Prop :=
  (∀ acc cs, lexer (some acc) ('.' :: cs) =
      if isTrackSide acc then lexer (some (acc ++ ['.'])) cs
      else tokenOfWord acc ::
        { lexeme := none, tokenType := TokenType.Dot } :: lexer none cs) ∧
  scanTokens "A1.".toList =
    [{ lexeme := some "A1.".toList, tokenType := TokenType.Literal },
     { lexeme := none, tokenType := TokenType.EOF }] ∧
  scanTokens "Tobias.".toList =
    [{ lexeme := some "Tobias".toList, tokenType := TokenType.Literal },
     { lexeme := none, tokenType := TokenType.Dot },
     { lexeme := none, tokenType := TokenType.EOF }]

/-- C3 counterexample: the code lexes `"A1."` as the literal `"A1"`
followed by a separate `Dot` token, not as the single literal `"A1."`
the claim predicts. -/
theorem dot_rule_claim_false : ¬ dotAbsorbClaim :=
  fun h => absurd h.2.1 (by decide)

/-- C3 amended: in `Scanner::keyword`, a `.` stopping a word in
progress is absorbed into the word exactly when the accumulated text
does NOT match the track-side pattern (a track-side match breaks the
word, leaving the dot to be lexed separately); consequently `"A1."`
lexes as the literal `"A1"` followed by a `Dot` token, while
`"Tobias."` lexes as the single literal `"Tobias."`. -/
theorem dot_rule_amended :
    (∀ acc cs, lexer (some acc) ('.' :: cs) =
        if isTrackSide acc then
          tokenOfWord acc ::
            { lexeme := none, tokenType := TokenType.Dot } :: lexer none cs
        else lexer (some (acc ++ ['.'])) cs) ∧
    scanTokens "A1.".toList =
      [{ lexeme := some "A1".toList, tokenType := TokenType.Literal },
       { lexeme := none, tokenType := TokenType.Dot },
       { lexeme := none, tokenType := TokenType.EOF }] ∧
    scanTokens "Tobias.".toList =
      [{ lexeme := some "Tobias.".toList, tokenType := TokenType.Literal },
       { lexeme := none, tokenType := TokenType.EOF }] :=
  ⟨fun _ _ => rfl, by decide, by decide⟩

/-! ## Totality infrastructure (claim C2) -/

/-- `Scanner::is_special_token` never produces a `Literal`. -/
theorem isSpecialToken_ne_literal (c : Char) :
    isSpecialToken c ≠ some TokenType.Literal := by
  unfold isSpecialToken
  split <;> intro h <;> cases h

/-- The keyword table only yields `Mix` or `Feat`. -/
theorem keywordType_ne_literal (w : List Char) :
    keywordType w ≠ some TokenType.Literal := by
  unfold keywordType
  split_ifs <;> intro h <;> cases h

/-- A completed word becomes a token whose lexeme is present whenever
its kind is `Literal`. -/
theorem tokenOfWord_lexeme (w : List Char) :
    (tokenOfWord w).tokenType = TokenType.Literal → (tokenOfWord w).lexeme ≠ none := by
  unfold tokenOfWord
  cases hk : keywordType w with
  | none => intro _ h; cases h
  | some t =>
    intro ht
    exact absurd (ht ▸ hk) (keywordType_ne_literal w)

/-- Every `Literal` token the scanner emits carries a lexeme. -/
theorem lexer_lexeme_ok :
    ∀ (cs : List Char) (mode : Option (List Char)) (t : Token), t ∈ lexer mode cs →
      t.tokenType = TokenType.Literal → t.lexeme ≠ none := by
  intro cs
  induction cs with
  | nil =>
    intro mode t ht hlit
    cases mode with
    | none => simp [lexer] at ht
    | some acc =>
      simp only [lexer, List.mem_singleton] at ht
      subst ht
      exact tokenOfWord_lexeme acc hlit
  | cons c cs ih =>
    intro mode t ht hlit
    cases mode with
    | none =>
      rcases hsp : isSpecialToken c with - | st
      · simp only [lexer, hsp] at ht
        by_cases hc : c = ' ' ∨ c = '\t'
        · rw [if_pos hc] at ht
          exact ih none t ht hlit
        · rw [if_neg hc] at ht
          exact ih (some [c]) t ht hlit
      · simp only [lexer, hsp] at ht
        rcases List.mem_cons.mp ht with rfl | hmem
        · exact absurd (hlit ▸ hsp) (isSpecialToken_ne_literal c)
        · exact ih none t hmem hlit
    | some acc =>
      rcases hsp : isSpecialToken c with - | st
      · simp only [lexer, hsp] at ht
        by_cases hc : c = ' '
        · rw [if_pos hc] at ht
          rcases List.mem_cons.mp ht with rfl | hmem
          · exact tokenOfWord_lexeme acc hlit
          · exact ih none t hmem hlit
        · rw [if_neg hc] at ht
          exact ih (some (acc ++ [c])) t ht hlit
      · cases st <;> simp only [lexer, hsp] at ht
        case Dot =>
          by_cases htr : isTrackSide acc
          · rw [if_pos htr] at ht
            rcases List.mem_cons.mp ht with rfl | ht2
            · exact tokenOfWord_lexeme acc hlit
            · rcases List.mem_cons.mp ht2 with rfl | ht3
              · cases hlit
              · exact ih none t ht3 hlit
          · rw [if_neg htr] at ht
            exact ih (some (acc ++ [c])) t ht hlit
        case Literal => exact absurd hsp (isSpecialToken_ne_literal c)
        all_goals
          rcases List.mem_cons.mp ht with rfl | ht2
        all_goals
          first
          | exact tokenOfWord_lexeme acc hlit
          | (rcases List.mem_cons.mp ht2 with rfl | ht3
             · cases hlit
             · exact ih none t ht3 hlit)

/-- The well-formedness facts the parser's totality rests on: any
non-`EOF` token has a successor in the buffer (the buffer ends with the
`EOF` sentinel), and every `Literal` token carries a lexeme. -/
def WellFormed (tokens : List Token) : Prop :=
  (∀ i t, tokens.get? i = some t → t.tokenType ≠ TokenType.EOF → i + 1 < tokens.length) ∧
  (∀ t ∈ tokens, t.tokenType = TokenType.Literal → t.lexeme ≠ none)

/-- The token buffer built by `Scanner::scan` is well-formed. -/
theorem scanTokens_wf (cs : List Char) : WellFormed (scanTokens cs) := by
  constructor
  · intro i t hg hne
    have hi : i < (scanTokens cs).length := by
      by_cases h : i < (scanTokens cs).length
      · exact h
      · rw [List.get?_eq_none.mpr (Nat.le_of_not_lt h)] at hg
        cases hg
    by_cases hlast : i + 1 < (scanTokens cs).length
    · exact hlast
    · exfalso
      have hieq : i = (lexer none cs).length := by
        have : (scanTokens cs).length = (lexer none cs).length + 1 := by
          simp [scanTokens]
        omega
      rw [scanTokens, hieq, List.get?_concat_length] at hg
      cases hg
      exact hne rfl
  · intro t ht hlit
    rw [scanTokens] at ht
    rcases List.mem_append.mp ht with hmem | hmem
    · exact lexer_lexeme_ok cs none t hmem hlit
    · rw [List.mem_singleton] at hmem
      subst hmem
      cases hlit

/-- Totality and progress of `consume_literals`: with enough fuel on a
well-formed buffer, it returns, stays in bounds, stops at a non-literal
token, and strictly advances when it starts on a `Literal`. -/
theorem consumeLiteralsF_total (tokens : List Token)
    (hlex : ∀ t ∈ tokens, t.tokenType = TokenType.Literal → t.lexeme ≠ none)
    (heof : ∀ i t, tokens.get? i = some t → t.tokenType ≠ TokenType.EOF →
      i + 1 < tokens.length) :
    ∀ fuel cur, cur < tokens.length → tokens.length - cur < fuel →
      ∃ ws c1, consumeLiteralsF tokens fuel cur = some (ws, c1) ∧
        cur ≤ c1 ∧ c1 < tokens.length ∧
        (∀ t1, tokens.get? c1 = some t1 → t1.tokenType ≠ TokenType.Literal) ∧
        (∀ t0, tokens.get? cur = some t0 → t0.tokenType = TokenType.Literal → cur < c1) := by
  intro fuel
  induction fuel with
  | zero => intro cur hlt hf; omega
  | succ f ih =>
    intro cur hlt hf
    obtain ⟨t0, hg⟩ : ∃ t0, tokens.get? cur = some t0 :=
      ⟨_, List.get?_eq_get hlt⟩
    by_cases hL : t0.tokenType = TokenType.Literal
    · have hlexm : t0.lexeme ≠ none := hlex t0 (List.get?_mem hg) hL
      obtain ⟨lx, hlx⟩ : ∃ lx, t0.lexeme = some lx := by
        cases hx : t0.lexeme with
        | none => exact absurd hx hlexm
        | some lx => exact ⟨lx, rfl⟩
      have hnext : cur + 1 < tokens.length :=
        heof cur t0 hg (by rw [hL]; intro hc; cases hc)
      obtain ⟨ws, c1, hrec, hle, hclt, hstop, -⟩ := ih (cur + 1) hnext (by omega)
      refine ⟨lx :: ws, c1, ?_, by omega, hclt, hstop, fun _ _ _ => by omega⟩
      simp only [consumeLiteralsF, hg, hL, hlx, hrec, eq_self_iff_true, if_true]
    · refine ⟨[], cur, ?_, Nat.le_refl cur, hlt, ?_, ?_⟩
      · simp only [consumeLiteralsF, hg]
        rw [if_neg hL]
      · intro t1 h1
        rw [hg] at h1
        cases h1
        exact hL
      · intro t0' h0 hl0
        rw [hg] at h0
        cases h0
        exact absurd hl0 hL

/-- The backward scan of `is_remixer` returns when it starts in
bounds. -/
theorem backScan_total (tokens : List Token) :
    ∀ i, i < tokens.length → ∃ b, backScan tokens i = some b := by
  intro i
  induction i with
  | zero =>
    intro hlt
    obtain ⟨⟨lex, tt⟩, hg⟩ : ∃ t, tokens.get? 0 = some t := ⟨_, List.get?_eq_get hlt⟩
    cases tt <;> exact ⟨_, by simp only [backScan, hg]; rfl⟩
  | succ i ih =>
    intro hlt
    obtain ⟨⟨lex, tt⟩, hg⟩ : ∃ t, tokens.get? (i + 1) = some t := ⟨_, List.get?_eq_get hlt⟩
    cases tt
    case LeftParen => exact ⟨true, by simp only [backScan, hg]⟩
    case Minus => exact ⟨false, by simp only [backScan, hg]⟩
    all_goals
      obtain ⟨b, hb⟩ := ih (by omega)
    all_goals
      exact ⟨b, by simp only [backScan, hg, hb]⟩

/-- `is_remixer` returns when the cursor is in bounds. -/
theorem isRemixer_total (tokens : List Token) (c : Nat) (hlt : c < tokens.length) :
    ∃ b, isRemixer tokens c = some b := by
  obtain ⟨b, hb⟩ := backScan_total tokens c hlt
  exact ⟨_, by rw [isRemixer, hb]⟩

/-- `advance` returns and keeps the cursor in bounds, moving exactly
one step right on a non-`EOF` token. -/
theorem advanceFrom_total (tokens : List Token)
    (heof : ∀ i t, tokens.get? i = some t → t.tokenType ≠ TokenType.EOF →
      i + 1 < tokens.length)
    (c : Nat) (hlt : c < tokens.length) :
    ∃ c', advanceFrom tokens c = some c' ∧ c ≤ c' ∧ c' < tokens.length ∧
      (∀ t, tokens.get? c = some t → t.tokenType ≠ TokenType.EOF → c' = c + 1) := by
  obtain ⟨t, hg⟩ : ∃ t, tokens.get? c = some t := ⟨_, List.get?_eq_get hlt⟩
  by_cases he : t.tokenType = TokenType.EOF
  · refine ⟨c, ?_, Nat.le_refl c, hlt, ?_⟩
    · simp only [advanceFrom, hg]
      rw [if_pos he]
    · intro t' h' hne
      rw [hg] at h'
      cases h'
      exact absurd he hne
  · refine ⟨c + 1, ?_, by omega, heof c t hg he, fun _ _ _ => rfl⟩
    simp only [advanceFrom, hg]
    rw [if_neg he]

/-- Totality of the post-parenthesis collecting loop. -/
theorem collectAfterParen_total (tokens : List Token)
    (hlex : ∀ t ∈ tokens, t.tokenType = TokenType.Literal → t.lexeme ≠ none)
    (heof : ∀ i t, tokens.get? i = some t → t.tokenType ≠ TokenType.EOF →
      i + 1 < tokens.length) :
    ∀ fuel c name, c < tokens.length → tokens.length - c < fuel →
      ∃ nm c', collectAfterParen tokens fuel c name = some (nm, c') ∧
        c ≤ c' ∧ c' < tokens.length := by
  intro fuel
  induction fuel with
  | zero => intro c name hlt hf; omega
  | succ f ih =>
    intro c name hlt hf
    obtain ⟨t, hg⟩ : ∃ t, tokens.get? c = some t := ⟨_, List.get?_eq_get hlt⟩
    by_cases he : t.tokenType = TokenType.EOF
    · refine ⟨name, c, ?_, Nat.le_refl c, hlt⟩
      simp only [collectAfterParen, hg]
      rw [if_pos he]
    · by_cases hL : t.tokenType = TokenType.Literal
      · obtain ⟨ws, c1, hcl, hle, hclt, -, hstrict⟩ :=
          consumeLiteralsF_total tokens hlex heof (tokens.length + 1) c hlt (by omega)
        have hc1 : c < c1 := hstrict t hg hL
        obtain ⟨nm, c', hrec, hle', hclt'⟩ := ih c1 (name ++ joinSp ws) hclt (by omega)
        refine ⟨nm, c', ?_, by omega, hclt'⟩
        simp only [collectAfterParen, hg, consumeLits, hcl, hrec]
        rw [if_neg he, if_pos hL]
      · refine ⟨name, c, ?_, Nat.le_refl c, hlt⟩
        simp only [collectAfterParen, hg]
        rw [if_neg he, if_neg hL]

/-- Totality and strict progress of one iteration of `Parser::parse`:
on a well-formed buffer no `unwrap` fails, and every continuing
iteration strictly advances the in-bounds cursor. -/
theorem parseStep_total (tokens : List Token) (hwf : WellFormed tokens) :
    ∀ cur parts, cur < tokens.length →
      ∃ r, parseStep tokens cur parts = some r ∧
        ∀ c' p', r = Sum.inl (c', p') → cur < c' ∧ c' < tokens.length := by
  obtain ⟨heof, hlex⟩ := hwf
  intro cur parts hlt
  obtain ⟨t0, hg⟩ : ∃ t0, tokens.get? cur = some t0 := ⟨_, List.get?_eq_get hlt⟩
  by_cases he0 : t0.tokenType = TokenType.EOF
  · refine ⟨Sum.inr parts, ?_, fun c' p' hr => Sum.noConfusion hr⟩
    simp only [parseStep, hg]
    rw [if_pos he0]
  · obtain ⟨ws, c1, hcl0, hle, hc1lt, hstop, hstrict⟩ :=
      consumeLiteralsF_total tokens hlex heof (tokens.length + 1) cur hlt (by omega)
    have hcl : consumeLits tokens cur = some (ws, c1) := hcl0
    obtain ⟨t1, h1⟩ : ∃ t1, tokens.get? c1 = some t1 := ⟨_, List.get?_eq_get hc1lt⟩
    obtain ⟨lex1, tt1⟩ := t1
    cases tt1 with
    | Dot =>
      obtain ⟨c', hadv, hle', hlt', hmv⟩ := advanceFrom_total tokens heof c1 hc1lt
      have hc' : c' = c1 + 1 := hmv _ h1 (by intro h; cases h)
      refine ⟨Sum.inl (c', if isTrackSide (joinSp ws) then
          parts ++ [TrackPart.TrackSide (joinSp ws)] else parts), ?_, ?_⟩
      · simp only [parseStep, hg, he0, if_false, hcl, h1, hadv, Option.map_some']
      · intro c'' p'' hr
        rw [Sum.inl.injEq, Prod.mk.injEq] at hr
        obtain ⟨hc, -⟩ := hr
        omega
    | Column =>
      obtain ⟨c', hadv, hle', hlt', hmv⟩ := advanceFrom_total tokens heof c1 hc1lt
      have hc' : c' = c1 + 1 := hmv _ h1 (by intro h; cases h)
      refine ⟨Sum.inl (c', if isTrackSide (joinSp ws) then
          parts ++ [TrackPart.TrackSide (joinSp ws)] else parts), ?_, ?_⟩
      · simp only [parseStep, hg, he0, if_false, hcl, h1, hadv, Option.map_some']
      · intro c'' p'' hr
        rw [Sum.inl.injEq, Prod.mk.injEq] at hr
        obtain ⟨hc, -⟩ := hr
        omega
    | Minus =>
      cases c1 with
      | zero =>
        obtain ⟨c', hadv, hle', hlt', hmv⟩ := advanceFrom_total tokens heof 0 hc1lt
        have hc' : c' = 1 := hmv _ h1 (by intro h; cases h)
        refine ⟨Sum.inl (c', parts), ?_, ?_⟩
        · simp only [parseStep, hg, he0, if_false, hcl, h1, peekBefore, hadv,
            Option.map_some']
        · intro c'' p'' hr
          rw [Sum.inl.injEq, Prod.mk.injEq] at hr
          obtain ⟨hc, -⟩ := hr
          omega
      | succ k =>
        obtain ⟨tk, hk⟩ : ∃ tk, tokens.get? k = some tk :=
          ⟨_, List.get?_eq_get (by omega)⟩
        have hnext : k + 1 + 1 < tokens.length := heof _ _ h1 (by intro h; cases h)
        by_cases htk : tk.tokenType = TokenType.Mix
        · have hadv1 : advanceFrom tokens (k + 1) = some (k + 1 + 1) := by
            simp only [advanceFrom, h1]
            rw [if_neg (by intro h; cases h)]
          obtain ⟨ws2, c3, hcl20, hle2, hc3lt, -, -⟩ :=
            consumeLiteralsF_total tokens hlex heof (tokens.length + 1) (k + 1 + 1)
              hnext (by omega)
          have hcl2 : consumeLits tokens (k + 1 + 1) = some (ws2, c3) := hcl20
          obtain ⟨c', hadv3, hle3, hlt3, -⟩ := advanceFrom_total tokens heof c3 hc3lt
          refine ⟨Sum.inl (c', parts ++ [TrackPart.TrackName (joinSp ws2)]), ?_, ?_⟩
          · simp only [parseStep, hg, he0, if_false, hcl, h1, peekBefore, hk, htk,
              eq_self_iff_true, if_true, hadv1, hcl2, hadv3, Option.map_some']
          · intro c'' p'' hr
            rw [Sum.inl.injEq, Prod.mk.injEq] at hr
            obtain ⟨hc, -⟩ := hr
            omega
        · obtain ⟨c', hadv, hle', hlt', hmv⟩ := advanceFrom_total tokens heof (k + 1) hc1lt
          have hc' : c' = k + 1 + 1 := hmv _ h1 (by intro h; cases h)
          refine ⟨Sum.inl (c', if joinSp ws ≠ [] then
              parts ++ [TrackPart.ArtistName (joinSp ws)] else parts), ?_, ?_⟩
          · simp only [parseStep, hg, he0, if_false, hcl, h1, peekBefore, hk, htk,
              hadv, Option.map_some']
          · intro c'' p'' hr
            rw [Sum.inl.injEq, Prod.mk.injEq] at hr
            obtain ⟨hc, -⟩ := hr
            omega
    | And =>
      obtain ⟨r1, hr1⟩ := isRemixer_total tokens c1 hc1lt
      have hnext : c1 + 1 < tokens.length := heof _ _ h1 (by intro h; cases h)
      have hadv1 : advanceFrom tokens c1 = some (c1 + 1) := by
        simp only [advanceFrom, h1]
        rw [if_neg (by intro h; cases h)]
      obtain ⟨ws2, c3, hcl20, hle2, hc3lt, -, -⟩ :=
        consumeLiteralsF_total tokens hlex heof (tokens.length + 1) (c1 + 1)
          hnext (by omega)
      have hcl2 : consumeLits tokens (c1 + 1) = some (ws2, c3) := hcl20
      obtain ⟨r2, hr2⟩ := isRemixer_total tokens c3 hc3lt
      cases r2 with
      | true =>
        obtain ⟨c4, hadv3, hle3, hlt3, -⟩ := advanceFrom_total tokens heof c3 hc3lt
        refine ⟨Sum.inl (c4, (parts ++
            [if r1 then TrackPart.Remix (joinSp ws) else TrackPart.ArtistName (joinSp ws)]) ++
            [TrackPart.Remix (joinSp ws2)]), ?_, ?_⟩
        · simp only [parseStep, hg, he0, if_false, hcl, h1, parseStep.parseConj,
            hr1, hadv1, hcl2, hr2, if_true, hadv3, Option.map_some']
        · intro c'' p'' hr
          rw [Sum.inl.injEq, Prod.mk.injEq] at hr
          obtain ⟨hc, -⟩ := hr
          omega
      | false =>
        refine ⟨Sum.inl (c3, (parts ++
            [if r1 then TrackPart.Remix (joinSp ws) else TrackPart.ArtistName (joinSp ws)]) ++
            [TrackPart.ArtistName (joinSp ws2)]), ?_, ?_⟩
        · simp only [parseStep, hg, he0, if_false, hcl, h1, parseStep.parseConj,
            hr1, hadv1, hcl2, hr2, Bool.false_eq_true, if_false]
        · intro c'' p'' hr
          rw [Sum.inl.injEq, Prod.mk.injEq] at hr
          obtain ⟨hc, -⟩ := hr
          omega
    | Feat =>
      obtain ⟨r1, hr1⟩ := isRemixer_total tokens c1 hc1lt
      have hnext : c1 + 1 < tokens.length := heof _ _ h1 (by intro h; cases h)
      have hadv1 : advanceFrom tokens c1 = some (c1 + 1) := by
        simp only [advanceFrom, h1]
        rw [if_neg (by intro h; cases h)]
      obtain ⟨ws2, c3, hcl20, hle2, hc3lt, -, -⟩ :=
        consumeLiteralsF_total tokens hlex heof (tokens.length + 1) (c1 + 1)
          hnext (by omega)
      have hcl2 : consumeLits tokens (c1 + 1) = some (ws2, c3) := hcl20
      obtain ⟨r2, hr2⟩ := isRemixer_total tokens c3 hc3lt
      cases r2 with
      | true =>
        obtain ⟨c4, hadv3, hle3, hlt3, -⟩ := advanceFrom_total tokens heof c3 hc3lt
        refine ⟨Sum.inl (c4, (parts ++
            [if r1 then TrackPart.Remix (joinSp ws) else TrackPart.ArtistName (joinSp ws)]) ++
            [TrackPart.Remix (joinSp ws2)]), ?_, ?_⟩
        · simp only [parseStep, hg, he0, if_false, hcl, h1, parseStep.parseConj,
            hr1, hadv1, hcl2, hr2, if_true, hadv3, Option.map_some']
        · intro c'' p'' hr
          rw [Sum.inl.injEq, Prod.mk.injEq] at hr
          obtain ⟨hc, -⟩ := hr
          omega
      | false =>
        refine ⟨Sum.inl (c3, (parts ++
            [if r1 then TrackPart.Remix (joinSp ws) else TrackPart.ArtistName (joinSp ws)]) ++
            [TrackPart.ArtistName (joinSp ws2)]), ?_, ?_⟩
        · simp only [parseStep, hg, he0, if_false, hcl, h1, parseStep.parseConj,
            hr1, hadv1, hcl2, hr2, Bool.false_eq_true, if_false]
        · intro c'' p'' hr
          rw [Sum.inl.injEq, Prod.mk.injEq] at hr
          obtain ⟨hc, -⟩ := hr
          omega
    | LeftParen =>
      have hnext : c1 + 1 < tokens.length := heof _ _ h1 (by intro h; cases h)
      by_cases hcond : joinSp ws = [] ∧ parts ≠ []
      · have hadv1 : advanceFrom tokens c1 = some (c1 + 1) := by
          simp only [advanceFrom, h1]
          rw [if_neg (by intro h; cases h)]
        obtain ⟨ws2, c3, hcl20, hle2, hc3lt, -, -⟩ :=
          consumeLiteralsF_total tokens hlex heof (tokens.length + 1) (c1 + 1)
            hnext (by omega)
        have hcl2 : consumeLits tokens (c1 + 1) = some (ws2, c3) := hcl20
        obtain ⟨t3, h3⟩ : ∃ t3, tokens.get? c3 = some t3 := ⟨_, List.get?_eq_get hc3lt⟩
        by_cases h3r : t3.tokenType = TokenType.RightParen
        · have hnext3 : c3 + 1 < tokens.length :=
            heof _ _ h3 (by rw [h3r]; intro h; cases h)
          have hadv3 : advanceFrom tokens c3 = some (c3 + 1) := by
            simp only [advanceFrom, h3]
            rw [if_neg (by rw [h3r]; intro h; cases h)]
          obtain ⟨nm, c5, hcol, hle5, hlt5⟩ :=
            collectAfterParen_total tokens hlex heof (tokens.length + 1) (c3 + 1)
              (('(' :: joinSp ws2) ++ [')']) hnext3 (by omega)
          obtain ⟨c', hadv5, hle', hlt', -⟩ := advanceFrom_total tokens heof c5 hlt5
          refine ⟨Sum.inl (c', parts ++ [TrackPart.TrackName nm]), ?_, ?_⟩
          · simp only [parseStep, hg, he0, if_false, hcl, h1]
            rw [if_pos hcond]
            simp only [hadv1, hcl2, h3, h3r, eq_self_iff_true, if_true, hadv3,
              hcol, hadv5, Option.map_some']
          · intro c'' p'' hr
            rw [Sum.inl.injEq, Prod.mk.injEq] at hr
            obtain ⟨hc, -⟩ := hr
            omega
        · obtain ⟨c', hadv3, hle3, hlt3, -⟩ := advanceFrom_total tokens heof c3 hc3lt
          refine ⟨Sum.inl (c', parts ++ [TrackPart.TrackName ('(' :: joinSp ws2)]), ?_, ?_⟩
          · simp only [parseStep, hg, he0, if_false, hcl, h1]
            rw [if_pos hcond]
            simp only [hadv1, hcl2, h3, h3r, if_false, hadv3, Option.map_some']
          · intro c'' p'' hr
            rw [Sum.inl.injEq, Prod.mk.injEq] at hr
            obtain ⟨hc, -⟩ := hr
            omega
      · obtain ⟨c', hadv, hle', hlt', hmv⟩ := advanceFrom_total tokens heof c1 hc1lt
        have hc' : c' = c1 + 1 := hmv _ h1 (by intro h; cases h)
        refine ⟨Sum.inl (c', parts ++ [TrackPart.TrackName (joinSp ws)]), ?_, ?_⟩
        · simp only [parseStep, hg, he0, if_false, hcl, h1]
          rw [if_neg hcond]
          simp only [hadv, Option.map_some']
        · intro c'' p'' hr
          rw [Sum.inl.injEq, Prod.mk.injEq] at hr
          obtain ⟨hc, -⟩ := hr
          omega
    | Mix =>
      obtain ⟨c', hadv, hle', hlt', hmv⟩ := advanceFrom_total tokens heof c1 hc1lt
      have hc' : c' = c1 + 1 := hmv _ h1 (by intro h; cases h)
      refine ⟨Sum.inl (c', parts ++ [TrackPart.Remix (joinSp ws)]), ?_, ?_⟩
      · simp only [parseStep, hg, he0, if_false, hcl, h1, hadv, Option.map_some']
      · intro c'' p'' hr
        rw [Sum.inl.injEq, Prod.mk.injEq] at hr
        obtain ⟨hc, -⟩ := hr
        omega
    | LeftBracket =>
      obtain ⟨c', hadv, hle', hlt', hmv⟩ := advanceFrom_total tokens heof c1 hc1lt
      have hc' : c' = c1 + 1 := hmv _ h1 (by intro h; cases h)
      by_cases hparts : parts = []
      · refine ⟨Sum.inl (c', parts), ?_, ?_⟩
        · simp only [parseStep, hg, he0, if_false, hcl, h1]
          rw [if_pos hparts]
          simp only [hadv, Option.map_some']
        · intro c'' p'' hr
          rw [Sum.inl.injEq, Prod.mk.injEq] at hr
          obtain ⟨hc, -⟩ := hr
          omega
      · obtain ⟨lp, hlp⟩ : ∃ lp, parts.getLast? = some lp := by
          cases hx : parts.getLast? with
          | none => exact absurd (List.getLast?_eq_none_iff.mp hx) hparts
          | some lp => exact ⟨lp, rfl⟩
        cases lp with
        | ArtistName v =>
          refine ⟨Sum.inl (c', parts ++ [TrackPart.TrackName (joinSp ws)]), ?_, ?_⟩
          · simp only [parseStep, hg, he0, if_false, hcl, h1]
            rw [if_neg hparts]
            simp only [hlp, hadv, Option.map_some']
          · intro c'' p'' hr
            rw [Sum.inl.injEq, Prod.mk.injEq] at hr
            obtain ⟨hc, -⟩ := hr
            omega
        | Label v =>
          refine ⟨Sum.inl (c', parts), ?_, ?_⟩
          · simp only [parseStep, hg, he0, if_false, hcl, h1]
            rw [if_neg hparts]
            simp only [hlp, hadv, Option.map_some']
          · intro c'' p'' hr
            rw [Sum.inl.injEq, Prod.mk.injEq] at hr
            obtain ⟨hc, -⟩ := hr
            omega
        | Remix v =>
          refine ⟨Sum.inl (c', parts), ?_, ?_⟩
          · simp only [parseStep, hg, he0, if_false, hcl, h1]
            rw [if_neg hparts]
            simp only [hlp, hadv, Option.map_some']
          · intro c'' p'' hr
            rw [Sum.inl.injEq, Prod.mk.injEq] at hr
            obtain ⟨hc, -⟩ := hr
            omega
        | TrackName v =>
          refine ⟨Sum.inl (c', parts), ?_, ?_⟩
          · simp only [parseStep, hg, he0, if_false, hcl, h1]
            rw [if_neg hparts]
            simp only [hlp, hadv, Option.map_some']
          · intro c'' p'' hr
            rw [Sum.inl.injEq, Prod.mk.injEq] at hr
            obtain ⟨hc, -⟩ := hr
            omega
        | TrackSide v =>
          refine ⟨Sum.inl (c', parts), ?_, ?_⟩
          · simp only [parseStep, hg, he0, if_false, hcl, h1]
            rw [if_neg hparts]
            simp only [hlp, hadv, Option.map_some']
          · intro c'' p'' hr
            rw [Sum.inl.injEq, Prod.mk.injEq] at hr
            obtain ⟨hc, -⟩ := hr
            omega
    | RightParen =>
      obtain ⟨c', hadv, hle', hlt', hmv⟩ := advanceFrom_total tokens heof c1 hc1lt
      have hc' : c' = c1 + 1 := hmv _ h1 (by intro h; cases h)
      refine ⟨Sum.inl (c', parts), ?_, ?_⟩
      · simp only [parseStep, hg, he0, if_false, hcl, h1, hadv, Option.map_some']
      · intro c'' p'' hr
        rw [Sum.inl.injEq, Prod.mk.injEq] at hr
        obtain ⟨hc, -⟩ := hr
        omega
    | RightBracket =>
      obtain ⟨c', hadv, hle', hlt', hmv⟩ := advanceFrom_total tokens heof c1 hc1lt
      have hc' : c' = c1 + 1 := hmv _ h1 (by intro h; cases h)
      refine ⟨Sum.inl (c', parts ++ [TrackPart.Label (joinSp ws)]), ?_, ?_⟩
      · simp only [parseStep, hg, he0, if_false, hcl, h1, hadv, Option.map_some']
      · intro c'' p'' hr
        rw [Sum.inl.injEq, Prod.mk.injEq] at hr
        obtain ⟨hc, -⟩ := hr
        omega
    | Plus =>
      obtain ⟨c', hadv, hle', hlt', hmv⟩ := advanceFrom_total tokens heof c1 hc1lt
      have hc' : c' = c1 + 1 := hmv _ h1 (by intro h; cases h)
      refine ⟨Sum.inl (c', parts ++ [TrackPart.TrackName (joinSp ws)]), ?_, ?_⟩
      · simp only [parseStep, hg, he0, if_false, hcl, h1, hadv, Option.map_some']
      · intro c'' p'' hr
        rw [Sum.inl.injEq, Prod.mk.injEq] at hr
        obtain ⟨hc, -⟩ := hr
        omega
    | Literal =>
      obtain ⟨c', hadv, hle', hlt', hmv⟩ := advanceFrom_total tokens heof c1 hc1lt
      have hc' : c' = c1 + 1 := hmv _ h1 (by intro h; cases h)
      refine ⟨Sum.inl (c', parts ++ [TrackPart.TrackName (joinSp ws)]), ?_, ?_⟩
      · simp only [parseStep, hg, he0, if_false, hcl, h1, hadv, Option.map_some']
      · intro c'' p'' hr
        rw [Sum.inl.injEq, Prod.mk.injEq] at hr
        obtain ⟨hc, -⟩ := hr
        omega
    | EOF =>
      have hcur : cur < c1 := by
        by_cases hx : cur = c1
        · subst hx
          rw [hg] at h1
          cases h1
          exact absurd rfl he0
        · omega
      obtain ⟨c', hadv, hle', hlt', -⟩ := advanceFrom_total tokens heof c1 hc1lt
      refine ⟨Sum.inl (c', parts ++ [TrackPart.TrackName (joinSp ws)]), ?_, ?_⟩
      · simp only [parseStep, hg, he0, if_false, hcl, h1, hadv, Option.map_some']
      · intro c'' p'' hr
        rw [Sum.inl.injEq, Prod.mk.injEq] at hr
        obtain ⟨hc, -⟩ := hr
        omega

/-- Totality of the main loop with fuel `tokens.length + 1 - cur` or
more: the cursor strictly advances, so the fuel never runs out. -/
theorem parseLoop_total (tokens : List Token) (hwf : WellFormed tokens) :
    ∀ fuel cur parts, cur < tokens.length → tokens.length - cur < fuel →
      ∃ ps, parseLoop tokens fuel cur parts = some ps := by
  intro fuel
  induction fuel with
  | zero => intro cur parts hlt hf; omega
  | succ f ih =>
    intro cur parts hlt hf
    obtain ⟨r, hr, hbound⟩ := parseStep_total tokens hwf cur parts hlt
    cases r with
    | inr ps => exact ⟨ps, by simp only [parseLoop, hr]⟩
    | inl cp =>
      obtain ⟨c', p'⟩ := cp
      obtain ⟨hgt, hlt'⟩ := hbound c' p' rfl
      obtain ⟨ps, hps⟩ := ih c' p' hlt' (by omega)
      exact ⟨ps, by simp only [parseLoop, hr, hps]⟩

/-- C2: for every input string — the empty string and strings with
non-ASCII characters included — `parse_track` returns a `Track` record.
In this embedding every `unwrap` and index access of the scanner's
dot-lookahead and the parser's scans is modelled with `Option` (`none`
standing for a panic or out-of-range access) and the loops carry fuel,
so `parseTrack cs = some t` states that no access goes out of range and
a (possibly empty) record is always produced. -/
theorem parse_track_total (cs : List Char) : ∃ t, parseTrack cs = some t := by
  have hwf := scanTokens_wf (cs.filter isAsciiChar)
  have hlen : 0 < (scanTokens (cs.filter isAsciiChar)).length := by
    simp [scanTokens]
  obtain ⟨ps, hps⟩ :=
    parseLoop_total (scanTokens (cs.filter isAsciiChar)) hwf
      ((scanTokens (cs.filter isAsciiChar)).length + 1) 0 [] hlen (by omega)
  exact ⟨foldParts ps, by simp only [parseTrack, parserParse, hps]⟩

/-! ## The Minus branch of the parser main loop (claim C4) -/

/-- A successful `consume_literals` starts with an in-range peek. -/
theorem consumeLiteralsF_get {tokens : List Token} {f cur : Nat}
    {ws : List (List Char)} {c1 : Nat}
    (h : consumeLiteralsF tokens (f + 1) cur = some (ws, c1)) :
    ∃ t0, tokens.get? cur = some t0 := by
  rw [consumeLiteralsF] at h
  cases hg : tokens.get? cur with
  | none => rw [hg] at h; cases h
  | some t => exact ⟨t, rfl⟩

/-- `consume_literals` starting at an `EOF` token consumes nothing. -/
theorem consumeLiteralsF_eof {tokens : List Token} {f cur : Nat}
    {ws : List (List Char)} {c1 : Nat} {t0 : Token}
    (h : consumeLiteralsF tokens (f + 1) cur = some (ws, c1))
    (hg : tokens.get? cur = some t0) (he : t0.tokenType = TokenType.EOF) :
    ws = [] ∧ c1 = cur := by
  simp only [consumeLiteralsF, hg] at h
  rw [if_neg (by rw [he]; intro hc; cases hc)] at h
  simp only [Option.some.injEq, Prod.mk.injEq] at h
  exact ⟨h.1.symm, h.2.symm⟩

/-- If `consume_literals` stops at a non-`EOF` token, the token at the
starting cursor is not `EOF` either (the `while` guard of the main loop
held when the branch was entered). -/
theorem consumeLits_start_ne_eof {tokens : List Token} {cur : Nat}
    {ws : List (List Char)} {c1 : Nat} {t0 t1 : Token}
    (h : consumeLits tokens cur = some (ws, c1))
    (hg : tokens.get? cur = some t0)
    (h1 : tokens.get? c1 = some t1) (hne : t1.tokenType ≠ TokenType.EOF) :
    t0.tokenType ≠ TokenType.EOF := by
  intro he
  obtain ⟨-, hc⟩ := consumeLiteralsF_eof h hg he
  rw [hc, hg] at h1
  cases h1
  exact hne he

/-- The claim as the specification words it, about one iteration of the
parser loop: if the literal run beginning at `cur` is stopped by a
`Minus` and the token immediately before the *run* (`cur - 1`) is
`Mix`, the iteration emits `TrackName` of the following run and no
`ArtistName`; otherwise a non-empty run yields `ArtistName`. -/
def minusMixClaim : Prop :=
  (∀ tokens cur parts ws c1 r,
      consumeLits tokens cur = some (ws, c1) →
      (tokens.get? c1).map Token.tokenType = some TokenType.Minus →
      1 ≤ cur →
      (tokens.get? (cur - 1)).map Token.tokenType = some TokenType.Mix →
      parseStep tokens cur parts = some r →
      ∃ c' ws2 c2, consumeLits tokens (c1 + 1) = some (ws2, c2) ∧
        r = Sum.inl (c', parts ++ [TrackPart.TrackName (joinSp ws2)])) ∧
  (∀ tokens cur parts ws c1 r,
      consumeLits tokens cur = some (ws, c1) →
      (tokens.get? c1).map Token.tokenType = some TokenType.Minus →
      (1 ≤ cur → ¬ (tokens.get? (cur - 1)).map Token.tokenType = some TokenType.Mix) →
      joinSp ws ≠ [] →
      parseStep tokens cur parts = some r →
      r = Sum.inl (c1 + 1, parts ++ [TrackPart.ArtistName (joinSp ws)]))

/-- Token buffer of `"mix X - Y"`: a `Mix` token immediately precedes
the literal run `X`, which is stopped by `Minus`. -/
def minusTokensA : List Token :=
  [{ lexeme := none, tokenType := TokenType.Mix },
   { lexeme := some "X".toList, tokenType := TokenType.Literal },
   { lexeme := none, tokenType := TokenType.Minus },
   { lexeme := some "Y".toList, tokenType := TokenType.Literal },
   { lexeme := none, tokenType := TokenType.EOF }]

/-- C4 counterexample: with the token before the literal run equal to
`Mix` but the run non-empty (`minusTokensA`, cursor 1), the code emits
`ArtistName "X"` — `peek_before` inspects the token before the cursor,
which is the run's own last literal, not the token before the run. -/
theorem minus_mix_claim_false : ¬ minusMixClaim := by
  intro h
  obtain ⟨c', ws2, c2, hc, hr⟩ :=
    h.1 minusTokensA 1 [] ["X".toList] 2
      (Sum.inl (3, [TrackPart.ArtistName "X".toList]))
      (by decide) (by decide) (by decide) (by decide) (by decide)
  simp at hr

/-- Token buffer of `"mix - Y"`: the `Minus` is reached with an empty
literal run and `Mix` immediately before the cursor. -/
def minusTokensB : List Token :=
  [{ lexeme := none, tokenType := TokenType.Mix },
   { lexeme := none, tokenType := TokenType.Minus },
   { lexeme := some "Y".toList, tokenType := TokenType.Literal },
   { lexeme := none, tokenType := TokenType.EOF }]

/-- C4 amended: the token the `Minus` branch consults is `peek_before`,
the token immediately before the *cursor* (`c1 - 1`, the last literal
of the run whenever the run is non-empty), not the token before the
run.  When that token is `Mix` the parser advances past `Minus`,
consumes the next literal run and emits `TrackName` of it (no
`ArtistName`); otherwise, when the run's joined text is non-empty, it
emits `ArtistName` of that text and advances past the `Minus`. -/
theorem minus_branch_amended :
    (∀ tokens cur parts ws c1 ws2 c3 c',
        consumeLits tokens cur = some (ws, c1) →
        (tokens.get? c1).map Token.tokenType = some TokenType.Minus →
        1 ≤ c1 →
        (tokens.get? (c1 - 1)).map Token.tokenType = some TokenType.Mix →
        consumeLits tokens (c1 + 1) = some (ws2, c3) →
        advanceFrom tokens c3 = some c' →
        parseStep tokens cur parts =
          some (Sum.inl (c', parts ++ [TrackPart.TrackName (joinSp ws2)]))) ∧
    (∀ tokens cur parts ws c1 tk,
        consumeLits tokens cur = some (ws, c1) →
        (tokens.get? c1).map Token.tokenType = some TokenType.Minus →
        peekBefore tokens c1 = some tk →
        tk.tokenType ≠ TokenType.Mix →
        joinSp ws ≠ [] →
        parseStep tokens cur parts =
          some (Sum.inl (c1 + 1, parts ++ [TrackPart.ArtistName (joinSp ws)]))) := by
  constructor
  · intro tokens cur parts ws c1 ws2 c3 c' hcl hmin hc1 hmix hcl2 hadv3
    obtain ⟨t1, h1, ht1⟩ := Option.map_eq_some'.mp hmin
    obtain ⟨t0, hg⟩ := consumeLiteralsF_get hcl
    have hne : t0.tokenType ≠ TokenType.EOF :=
      consumeLits_start_ne_eof hcl hg h1 (by rw [ht1]; intro hc; cases hc)
    obtain ⟨k, rfl⟩ : ∃ k, c1 = k + 1 := ⟨c1 - 1, (Nat.succ_pred_eq_of_pos hc1).symm⟩
    rw [Nat.add_sub_cancel] at hmix
    obtain ⟨tm, hm, htm⟩ := Option.map_eq_some'.mp hmix
    have hadv1 : advanceFrom tokens (k + 1) = some (k + 1 + 1) := by
      simp only [advanceFrom, h1]
      rw [if_neg (by rw [ht1]; intro hc; cases hc)]
    simp only [parseStep, hg, hne, if_false, hcl, h1, ht1, peekBefore, hm, htm,
      if_true, hadv1, hcl2, hadv3, Option.map_some']
  · intro tokens cur parts ws c1 tk hcl hmin hbef htk hne0
    obtain ⟨t1, h1, ht1⟩ := Option.map_eq_some'.mp hmin
    obtain ⟨t0, hg⟩ := consumeLiteralsF_get hcl
    have hne : t0.tokenType ≠ TokenType.EOF :=
      consumeLits_start_ne_eof hcl hg h1 (by rw [ht1]; intro hc; cases hc)
    have hadv1 : advanceFrom tokens c1 = some (c1 + 1) := by
      simp only [advanceFrom, h1]
      rw [if_neg (by rw [ht1]; intro hc; cases hc)]
    simp only [parseStep, hg, hne, if_false, hcl, h1, ht1, hbef, htk,
      if_true, hadv1, Option.map_some']
    rw [if_pos hne0]

/-- Witness for `minus_branch_amended`: on `minusTokensB` at cursor 1
(empty run, `Mix` before the cursor) the iteration emits
`TrackName "Y"`. -/
theorem minus_branch_amended_witness :
    parseStep minusTokensB 1 [] =
      some (Sum.inl (3, [TrackPart.TrackName "Y".toList])) :=
  minus_branch_amended.1 minusTokensB 1 [] [] 1 ["Y".toList] 3 3
    (by decide) (by decide) (by decide) (by decide) (by decide) (by decide)

/-! ## Concrete pipeline claims (C6, C7, C8, C10) -/

/-- C6: during the fold of `parse_track`, a `Remix` fragment whose
ASCII lowercasing is `"original"` is discarded and never inserted, and
concretely `"Artist - Title (Someone Remix)"` yields remix
`{"Someone"}` while `"Artist - Title (Original Mix)"` yields an empty
remix collection. -/
theorem original_remix_discarded :
    (∀ l1 l2 v, lowerStr v = "original".toList →
        foldParts (l1 ++ TrackPart.Remix v :: l2) = foldParts (l1 ++ l2)) ∧
    parseTrack "Artist - Title (Someone Remix)".toList =
      some { name := "Title".toList, artists := ["Artist".toList], catno := [],
             remix := ["Someone".toList], position := [] } ∧
    parseTrack "Artist - Title (Original Mix)".toList =
      some { name := "Title".toList, artists := ["Artist".toList], catno := [],
             remix := [], position := [] } := by
  refine ⟨fun l1 l2 v hv => ?_, by decide, by decide⟩
  have key : foldStep (foldParts l1) (TrackPart.Remix v) = foldParts l1 := by
    simp only [foldStep]
    rw [if_pos hv]
  have split1 : foldParts (l1 ++ TrackPart.Remix v :: l2) =
      List.foldl foldStep (foldStep (foldParts l1) (TrackPart.Remix v)) l2 := by
    rw [foldParts, List.foldl_append, List.foldl_cons]
    rfl
  have split2 : foldParts (l1 ++ l2) = List.foldl foldStep (foldParts l1) l2 := by
    rw [foldParts, List.foldl_append]
    rfl
  rw [split1, key, split2]

/-- Witness for `original_remix_discarded`: the fold drops the
`Remix "Original"` fragment of a concrete fragment list. -/
theorem original_remix_discarded_witness :
    lowerStr "Original".toList = "original".toList ∧
    foldParts ([TrackPart.ArtistName "Artist".toList] ++
        TrackPart.Remix "Original".toList :: [TrackPart.TrackName "Title".toList]) =
      foldParts ([TrackPart.ArtistName "Artist".toList] ++
        [TrackPart.TrackName "Title".toList]) :=
  ⟨by decide, original_remix_discarded.1 _ _ _ (by decide)⟩

/-- C7: `"ArtistA & ArtistB - Title"` and `"ArtistA, ArtistB - Title"`
both yield exactly the two artists `ArtistA`, `ArtistB`, and
`"Artist - Title (RemixerA & RemixerB Remix)"` yields exactly the two
remixers `RemixerA`, `RemixerB`; the conjunction is classified by the
`is_remixer` backward/forward context test (false before the dash, true
inside the mix parenthesis). -/
theorem conjunction_examples :
    parseTrack "ArtistA & ArtistB - Title".toList =
      some { name := "Title".toList, artists := ["ArtistA".toList, "ArtistB".toList],
             catno := [], remix := [], position := [] } ∧
    parseTrack "ArtistA, ArtistB - Title".toList =
      some { name := "Title".toList, artists := ["ArtistA".toList, "ArtistB".toList],
             catno := [], remix := [], position := [] } ∧
    parseTrack "Artist - Title (RemixerA & RemixerB Remix)".toList =
      some { name := "Title".toList, artists := ["Artist".toList], catno := [],
             remix := ["RemixerA".toList, "RemixerB".toList], position := [] } ∧
    isRemixer (scanTokens "ArtistA & ArtistB - Title".toList) 1 = some false ∧
    isRemixer (scanTokens "Artist - Title (RemixerA & RemixerB Remix)".toList) 5 =
      some true := by
  refine ⟨by decide, by decide, by decide, by decide, by decide⟩

/-- C8: `"A1: Artist - Title"` and `"A1. Artist - Title"` both parse
with `position = "A1"`; the track-side pattern is one ASCII letter
followed by one digit 1-9, zero being invalid. -/
theorem track_side_examples :
    (parseTrack "A1: Artist - Title".toList).map Track.position = some "A1".toList ∧
    (parseTrack "A1. Artist - Title".toList).map Track.position = some "A1".toList ∧
    isTrackSide "A1".toList = true ∧
    isTrackSide "A0".toList = false := by
  refine ⟨by decide, by decide, by decide, by decide⟩

/-! ## Inputs without structural characters (claim C5) -/

/-- A `Literal` token carrying `w`. -/
def mkLit (w : List Char) : Token :=
  { lexeme := some w, tokenType := TokenType.Literal }

/-- The `EOF` sentinel token. -/
def eofTok : Token :=
  { lexeme := none, tokenType := TokenType.EOF }

/-- The space-separated words of a string, with the same recursion
structure as the lexer: `none` outside a word, `some w` inside the word
accumulated so far.  This is the specification's notion of "the whole
input's literal words". -/
def specWordsM : Option (List Char) → List Char → List (List Char)
  | none, [] => []
  | some w, [] => [w]
  | none, c :: cs => if c = ' ' then specWordsM none cs else specWordsM (some [c]) cs
  | some w, c :: cs =>
    if c = ' ' then w :: specWordsM none cs else specWordsM (some (w ++ [c])) cs

/-- The space-separated words of a string. -/
def specWords (cs : List Char) : List (List Char) :=
  specWordsM none cs

/-- The single-character structural tokens listed by the claim. -/
def structuralChar (c : Char) : Bool :=
  c ∈ ['(', ')', '[', ']', '&', ',', '-', '+', ':', '.']

/-- The claim as the specification words it: any input free of the ten
structural characters and of non-ASCII characters parses to a `Track`
with empty artists/remix/catno/position whose name is the input's words
joined by single spaces. -/
def plainInputClaim : Prop :=
  ∀ cs : List Char, (∀ c ∈ cs, isAsciiChar c = true ∧ structuralChar c = false) →
    parseTrack cs = some { name := joinSp (specWords cs), artists := [], catno := [],
                           remix := [], position := [] }

/-- C5 counterexample: `"mix"` contains no structural character, yet it
lexes as the `Mix` keyword token, the parser emits `Remix ""`, and the
result has an empty name and a non-empty remix collection instead of
`name = "mix"`. -/
theorem plain_input_claim_false : ¬ plainInputClaim := by
  intro h
  exact absurd (h "mix".toList (by decide)) (by decide)

/-- On input without special characters or tabs, the lexer produces one
`Literal` token per space-separated word, provided no word is in the
keyword table. -/
theorem lexer_plain :
    ∀ (cs : List Char) (mode : Option (List Char)),
      (∀ c ∈ cs, isSpecialToken c = none ∧ c ≠ '\t') →
      (∀ w ∈ specWordsM mode cs, keywordType w = none) →
      lexer mode cs = (specWordsM mode cs).map mkLit := by
  intro cs
  induction cs with
  | nil =>
    intro mode hcs hkw
    cases mode with
    | none => rfl
    | some acc =>
      have hk : keywordType acc = none := hkw acc (by simp [specWordsM])
      simp [lexer, specWordsM, tokenOfWord, hk, mkLit]
  | cons c cs ih =>
    intro mode hcs hkw
    obtain ⟨hsp, htab⟩ := hcs c (List.mem_cons_self c cs)
    have hcs' : ∀ x ∈ cs, isSpecialToken x = none ∧ x ≠ '\t' :=
      fun x hx => hcs x (List.mem_cons_of_mem c hx)
    cases mode with
    | none =>
      by_cases hspace : c = ' '
      · have hspec : specWordsM none (c :: cs) = specWordsM none cs := by
          simp only [specWordsM]
          rw [if_pos hspace]
        have hlexr : lexer none (c :: cs) = lexer none cs := by
          simp only [lexer, hsp]
          rw [if_pos (Or.inl hspace)]
        rw [hlexr, hspec]
        exact ih none hcs' (by rw [← hspec]; exact hkw)
      · have hspec : specWordsM none (c :: cs) = specWordsM (some [c]) cs := by
          simp only [specWordsM]
          rw [if_neg hspace]
        have hlexr : lexer none (c :: cs) = lexer (some [c]) cs := by
          simp only [lexer, hsp]
          rw [if_neg (by rintro (h | h) <;> [exact hspace h; exact htab h])]
        rw [hlexr, hspec]
        exact ih (some [c]) hcs' (by rw [← hspec]; exact hkw)
    | some acc =>
      by_cases hspace : c = ' '
      · have hspec : specWordsM (some acc) (c :: cs) = acc :: specWordsM none cs := by
          simp only [specWordsM]
          rw [if_pos hspace]
        have hk : keywordType acc = none := by
          apply hkw
          rw [hspec]
          exact List.mem_cons_self acc _
        have hlexr : lexer (some acc) (c :: cs) = tokenOfWord acc :: lexer none cs := by
          simp only [lexer, hsp]
          rw [if_pos hspace]
        rw [hlexr, hspec, List.map_cons]
        have htw : tokenOfWord acc = mkLit acc := by
          simp [tokenOfWord, hk, mkLit]
        rw [htw, ih none hcs' (fun w hw => hkw w (by rw [hspec]; exact List.mem_cons_of_mem acc hw))]
      · have hspec : specWordsM (some acc) (c :: cs) = specWordsM (some (acc ++ [c])) cs := by
          simp only [specWordsM]
          rw [if_neg hspace]
        have hlexr : lexer (some acc) (c :: cs) = lexer (some (acc ++ [c])) cs := by
          simp only [lexer, hsp]
          rw [if_neg hspace]
        rw [hlexr, hspec]
        exact ih (some (acc ++ [c])) hcs' (by rw [← hspec]; exact hkw)

/-- `consume_literals` over a run of `Literal` tokens gathers all their
lexemes and stops at the following token. -/
theorem consumeLiteralsF_run :
    ∀ (ws : List (List Char)) (pre rest : List Token) (f : Nat) (tr : Token),
      ws.length < f →
      rest.head? = some tr → tr.tokenType ≠ TokenType.Literal →
      consumeLiteralsF (pre ++ ws.map mkLit ++ rest) f pre.length =
        some (ws, pre.length + ws.length) := by
  intro ws
  induction ws with
  | nil =>
    intro pre rest f tr hf hhd htr
    obtain ⟨f', rfl⟩ : ∃ f', f = f' + 1 := ⟨f - 1, by omega⟩
    have hget : (pre ++ ([] : List (List Char)).map mkLit ++ rest).get? pre.length =
        some tr := by
      rw [List.map_nil, List.append_nil, List.get?_append_right (Nat.le_refl _),
        Nat.sub_self, List.get?_zero, hhd]
    simp only [consumeLiteralsF, hget]
    rw [if_neg htr]
    simp
  | cons w ws ih =>
    intro pre rest f tr hf hhd htr
    obtain ⟨f', rfl⟩ : ∃ f', f = f' + 1 := ⟨f - 1, by omega⟩
    have hget : (pre ++ (w :: ws).map mkLit ++ rest).get? pre.length =
        some (mkLit w) := by
      rw [List.append_assoc, List.get?_append_right (Nat.le_refl _), Nat.sub_self,
        List.get?_zero]
      rfl
    have hL : (mkLit w).tokenType = TokenType.Literal := rfl
    have hlx : (mkLit w).lexeme = some w := rfl
    have hlist : pre ++ (w :: ws).map mkLit ++ rest =
        (pre ++ [mkLit w]) ++ ws.map mkLit ++ rest := by
      simp [List.append_assoc]
    have hrec := ih (pre ++ [mkLit w]) rest f' tr (by simp at hf ⊢; omega) hhd htr
    rw [List.length_append, List.length_singleton] at hrec
    rw [← hlist] at hrec
    have harith : pre.length + 1 + ws.length = pre.length + (w :: ws).length := by
      simp [List.length_cons]
      omega
    rw [harith] at hrec
    simp only [consumeLiteralsF, hget, hL, hlx, hrec, eq_self_iff_true, if_true]

/-- The parser applied to a buffer of literal tokens: an empty buffer
yields no fragments, otherwise one `TrackName` with the joined text. -/
theorem parseLoop_plain (w : List Char) (ws : List (List Char)) :
    parseLoop ((w :: ws).map mkLit ++ [eofTok])
        (((w :: ws).map mkLit ++ [eofTok]).length + 1) 0 [] =
      some [TrackPart.TrackName (joinSp (w :: ws))] := by
  have hget0 : ((w :: ws).map mkLit ++ [eofTok]).get? 0 = some (mkLit w) := rfl
  have hrun : consumeLits ((w :: ws).map mkLit ++ [eofTok]) 0 =
      some (w :: ws, (w :: ws).length) := by
    have := consumeLiteralsF_run (w :: ws) [] [eofTok]
      (((w :: ws).map mkLit ++ [eofTok]).length + 1) eofTok
      (by simp) rfl (by intro h; cases h)
    simpa [consumeLits] using this
  have hgetN : ((w :: ws).map mkLit ++ [eofTok]).get? (w :: ws).length = some eofTok := by
    rw [show (w :: ws).length = ((w :: ws).map mkLit).length by simp,
      List.get?_concat_length]
  have hadv : advanceFrom ((w :: ws).map mkLit ++ [eofTok]) (w :: ws).length =
      some (w :: ws).length := by
    simp only [advanceFrom, hgetN]
    rw [if_pos (show eofTok.tokenType = TokenType.EOF from rfl)]
  have hne : ¬ (mkLit w).tokenType = TokenType.EOF := by intro h; cases h
  have step1 : parseStep ((w :: ws).map mkLit ++ [eofTok]) 0 [] =
      some (Sum.inl ((w :: ws).length, [TrackPart.TrackName (joinSp (w :: ws))])) := by
    have heq : eofTok.tokenType = TokenType.EOF := rfl
    simp only [parseStep, hget0, hne, if_false, hrun, hgetN, heq, hadv,
      Option.map_some', List.nil_append]
  have step2 : parseStep ((w :: ws).map mkLit ++ [eofTok]) (w :: ws).length
      [TrackPart.TrackName (joinSp (w :: ws))] =
      some (Sum.inr [TrackPart.TrackName (joinSp (w :: ws))]) := by
    simp only [parseStep, hgetN]
    rw [if_pos (show eofTok.tokenType = TokenType.EOF from rfl)]
  have hfuel : ((w :: ws).map mkLit ++ [eofTok]).length + 1 = ws.length + 1 + 1 + 1 := by
    simp
  rw [hfuel]
  simp only [parseLoop, step1, step2]

/-- C5 amended: the conclusion holds once the input class additionally
excludes tabs and NUL (the ten structural characters of the claim are
not the only special characters: NUL lexes as an `EOF` sentinel, and a
tab inside a word is absorbed rather than acting as a boundary) and
excludes inputs one of whose words is in the keyword table (such words
lex as `Mix`/`Feat` tokens, not literals). -/
theorem plain_input_amended (cs : List Char)
    (hchars : ∀ c ∈ cs, isAsciiChar c = true ∧ isSpecialToken c = none ∧ c ≠ '\t')
    (hkw : ∀ w ∈ specWords cs, keywordType w = none) :
    parseTrack cs = some { name := joinSp (specWords cs), artists := [], catno := [],
                           remix := [], position := [] } := by
  have hfilter : cs.filter isAsciiChar = cs :=
    List.filter_eq_self.mpr (fun c hc => (hchars c hc).1)
  have hlex : lexer none cs = (specWords cs).map mkLit :=
    lexer_plain cs none (fun c hc => ⟨(hchars c hc).2.1, (hchars c hc).2.2⟩) hkw
  have htokens : scanTokens cs = (specWords cs).map mkLit ++ [eofTok] := by
    rw [scanTokens, hlex]
    rfl
  cases hw : specWords cs with
  | nil =>
    have : parserParse cs = some [] := by
      simp only [parserParse, htokens, hw, List.map_nil, List.nil_append]
      rfl
    simp only [parseTrack, hfilter, this]
    rfl
  | cons w ws =>
    have : parserParse cs = some [TrackPart.TrackName (joinSp (w :: ws))] := by
      simp only [parserParse, htokens, hw]
      exact parseLoop_plain w ws
    simp only [parseTrack, hfilter, this, hw]
    rfl

/-- Witness for `plain_input_amended` at the input `"Hello World"`. -/
theorem plain_input_amended_witness :
    parseTrack "Hello World".toList =
      some { name := joinSp (specWords "Hello World".toList), artists := [], catno := [],
             remix := [], position := [] } :=
  plain_input_amended "Hello World".toList (by decide) (by decide)

/-- C10: the input `"mix - Title"` (the bare keyword `mix` followed by
`- Title`) parses to a `Track` whose remix collection contains the
empty string: the `Mix` token stops an empty literal run, the parser
emits `Remix ""`, and the fold inserts it since `""` does not lowercase
to `"original"`. -/
theorem empty_remixer_example :
    parseTrack "mix - Title".toList =
      some { name := "Title".toList, artists := [], catno := [],
             remix := ["".toList], position := [] } := by
  decide

end Phonique
